import Mathlib

/-!
Shallow embedding of the Q-learning grid-world demo (`src/script.ts`, with
the compiled draft in `src/unnamed/part_000`).

Modelling conventions:
* JS numbers are embedded as `ℤ` where the code only ever holds integers
  (coordinates, widths, times, Manhattan distances) and as `ℚ` where the
  code holds fractional values (Q-values, rewards, the three rates).
* `Math.random()` draws are made explicit oracle arguments: the draw used
  by the `Math.random() < this.explorationRate` test is a rational `r1`,
  and the draw used by `Math.floor(Math.random() * this.actions.length)`
  is given directly as the resulting index `idx : Fin 4`.
* The JS object `Record<string, Record<Action, number>>` is embedded as a
  function `String → Option (String → ℚ)`: a missing state row is `none`,
  and `row?.[action] ?? 0` reads `0` through both missing levels.
* `Date.now()` is an abstract clock `clock : ℕ → ℤ` sampled at
  successively later ticks; monotonicity of the real clock becomes an
  explicit hypothesis where a claim needs it.
* `setInterval` scheduling of `runEpisode` becomes a fuel-indexed loop:
  `none` means the episode had not terminated within the given fuel
  (the real loop simply keeps running), `some` is a sealed episode.
-/

namespace QDemo

/-- Source `type Position = \x7b x: number, y: number \x7d` (integer coordinates). -/
structure Position where
  x : ℤ
  y : ℤ
deriving DecidableEq, Repr

/-- The `World` data relevant to the core: `width`, `height`, `goal`. -/
structure World where
  width : ℤ
  height : ℤ
  goal : Position
deriving DecidableEq, Repr

/-- Source `actions = ['UP', 'DOWN', 'LEFT', 'RIGHT'] as const`. -/
def actions : List String := ["UP", "DOWN", "LEFT", "RIGHT"]

/-- A state row `Record<typeof this.actions[number], number>`, read with the
JS `?? 0` default for any key that was never written. -/
def QRow : Type := String → ℚ

/-- Source `qTable: Record<string, Record<Action, number>>`, initially empty. -/
def QTable : Type := String → Option QRow

/-- The empty table `{}`. -/
def emptyQTable : QTable := fun _ => none

/-- The freshly materialized row `{ UP: 0, DOWN: 0, LEFT: 0, RIGHT: 0 }`
(every field `0`, and absent fields also read `0` through `?? 0`). -/
def zeroRow : QRow := fun _ => 0

/-- Source `getQValue(stateKey, action) = this.qTable[stateKey]?.[action] ?? 0`. -/
def getQValue (t : QTable) (stateKey action : String) : ℚ :=
  match t stateKey with
  | none => 0
  | some row => row action

/-- The write performed by `updateQValue`:
`if (!this.qTable[stateKey]) this.qTable[stateKey] = {UP:0,DOWN:0,LEFT:0,RIGHT:0};
this.qTable[stateKey][action] = newQ`. -/
def setQValue (t : QTable) (stateKey action : String) (v : ℚ) : QTable :=
  let row := (t stateKey).getD zeroRow
  fun k => if k = stateKey then some (fun a => if a = action then v else row a) else t k

/-- Decimal digit character, called only with arguments `< 10`
(the representation of one decimal digit of a JS number). -/
def digitChar : ℕ → Char
  | 0 => '0'
  | 1 => '1'
  | 2 => '2'
  | 3 => '3'
  | 4 => '4'
  | 5 => '5'
  | 6 => '6'
  | 7 => '7'
  | 8 => '8'
  | _ => '9'

/-- Decimal character representation of a natural number, as JS
`String(n)` produces for a non-negative integer. -/
def natChars (n : ℕ) : List Char :=
  if _h : n < 10 then [digitChar n]
  else natChars (n / 10) ++ [digitChar (n % 10)]
  termination_by n
  decreasing_by exact Nat.div_lt_self (by omega) (by omega)

/-- Character representation of an integer, as JS string interpolation
`${n}` produces for an integer-valued number. -/
def intChars (n : ℤ) : List Char :=
  if n < 0 then '-' :: natChars n.natAbs else natChars n.toNat

/-- Source `getQStateKey()` / the inline key in `updateQValue`:
the string `` `${x},${y}` ``. -/
def posKey (p : Position) : String :=
  ⟨intChars p.x ++ ',' :: intChars p.y⟩

/-- Mutable fields of one `QLearningAI` (the `AI` base-class fields plus
the Q-learning configuration). -/
structure AIState where
  position : Position
  spawn : Position
  qTable : QTable
  explorationRate : ℚ
  learningRate : ℚ
  discountFactor : ℚ

/-- Source `manhattanDistanceToGoal()` evaluated at an explicit position:
`|x - goal.x| + |y - goal.y|`. -/
def manhattanDist (p goal : Position) : ℤ :=
  |p.x - goal.x| + |p.y - goal.y|

/-- Source `chooseAction()`, with the two `Math.random()` draws passed in as
`r1` (the exploration test sample) and `idx` (the uniform action index
`Math.floor(Math.random() * 4)`). -/
def chooseAction (st : AIState) (r1 : ℚ) (idx : Fin 4) : String :=
  if r1 < st.explorationRate then
    actions.get (Fin.cast (by rfl) idx)
  else
    let qStateKey := posKey st.position
    actions.foldl
      (fun bestAction action =>
        if getQValue st.qTable qStateKey action > getQValue st.qTable qStateKey bestAction
        then action else bestAction)
      (actions.headD "UP")

/-- Source `commitAction(action)`: the `switch` clamping the position to the
grid; a string matching no `case` falls through and leaves the position
unchanged (the switch has no `default`). -/
def commitAction (w : World) (p : Position) (action : String) : Position :=
  if action = "UP" then { p with y := max 0 (p.y - 1) }
  else if action = "DOWN" then { p with y := min (w.height - 1) (p.y + 1) }
  else if action = "LEFT" then { p with x := max 0 (p.x - 1) }
  else if action = "RIGHT" then { p with x := min (w.width - 1) (p.x + 1) }
  else p

/-- The reward expression from `learn()`, a function of the post-move
position: `100` at the goal, otherwise `-distanceToGoal / 10`. -/
def rewardAt (w : World) (p : Position) : ℚ :=
  if p.x = w.goal.x ∧ p.y = w.goal.y then 100
  else -((manhattanDist p w.goal : ℚ)) / 10

/-- Source `updateQValue(oldState, action, reward)`; `st.position` is already the
post-move position when this runs, exactly as in `learn()`. -/
def updateQValue (st : AIState) (oldState : Position) (action : String) (reward : ℚ) :
    AIState :=
  let stateKey := posKey oldState
  let currentQ := getQValue st.qTable stateKey action
  let nextStateKey := posKey st.position
  -- Math.max(...this.actions.map(a => this.getQValue(nextStateKey, a)))
  let maxNextQ :=
    max (getQValue st.qTable nextStateKey "UP")
      (max (getQValue st.qTable nextStateKey "DOWN")
        (max (getQValue st.qTable nextStateKey "LEFT")
          (getQValue st.qTable nextStateKey "RIGHT")))
  let newQ := currentQ + st.learningRate * (reward + st.discountFactor * maxNextQ - currentQ)
  { st with qTable := setQValue st.qTable stateKey action newQ }

/-- Source `type Decision` with fields action, reward, distanceToGoal, position. -/
structure Decision where
  action : String
  reward : ℚ
  distanceToGoal : ℤ
  position : Position

/-- Source `learn()`: choose an action, commit it, compute the reward from the new
position, update the Q-table, and return the `Decision`. -/
def learn (w : World) (st : AIState) (r1 : ℚ) (idx : Fin 4) : AIState × Decision :=
  let action := chooseAction st r1 idx
  let oldPosition := st.position
  let newPosition := commitAction w st.position action
  let distanceToGoal := manhattanDist newPosition w.goal
  let reward := rewardAt w newPosition
  let st' := updateQValue { st with position := newPosition } oldPosition action reward
  (st', { action := action, reward := reward, distanceToGoal := distanceToGoal,
          position := newPosition })

/-- Source `type Episode` with startTime, endTime, decisions (times are
`Date.now()` millisecond readings). -/
structure Episode where
  startTime : ℤ
  endTime : ℤ
  decisions : List Decision

/-- The `setInterval` body of `runEpisode`, fuel-indexed: at each tick the
loop first tests goal arrival and, if not there yet, runs `learn()` and
appends the `Decision`.  `ρ` supplies the two random draws consumed by the
tick's `learn()` call, `t` is the current tick, `acc` the decisions taken
so far (most recent first).  `none` means the episode was still running
when the fuel ran out; `some (st, ds, t)` is termination at tick `t` with
the decision trace `ds` in the order taken. -/
def runEpisodeLoop (w : World) (ρ : ℕ → ℚ × Fin 4) :
    ℕ → ℕ → AIState → List Decision → Option (AIState × List Decision × ℕ)
  | 0, _, _, _ => none
  | fuel + 1, t, st, acc =>
    if st.position.x = w.goal.x ∧ st.position.y = w.goal.y then
      some (st, acc.reverse, t)
    else
      let r := learn w st (ρ t).1 (ρ t).2
      runEpisodeLoop w ρ fuel (t + 1) r.1 (r.2 :: acc)

/-- Source `runEpisode(decisionInterval)`: stamps `startTime = Date.now()` at tick
`t0`, runs the interval loop from tick `t0 + 1`, and stamps
`endTime = Date.now()` at the terminating tick. -/
def runEpisode (w : World) (ρ : ℕ → ℚ × Fin 4) (clock : ℕ → ℤ) (fuel : ℕ) (t0 : ℕ)
    (st : AIState) : Option (AIState × Episode × ℕ) :=
  (runEpisodeLoop w ρ fuel (t0 + 1) st []).map fun r =>
    (r.1, { startTime := clock t0, endTime := clock r.2.2, decisions := r.2.1 }, r.2.2)

/-- The per-iteration reset at the top of the `train` loop:
`this.spawn = { ...spawnPointGenerator() }; this.position = { ...this.spawn }`. -/
def resetForEpisode (st : AIState) (p : Position) : AIState :=
  { st with spawn := p, position := p }

/-- The `for (let i = 0; i < episodes; i++)` body of `train`, by remaining
iteration count: reset spawn/position, run one episode to termination,
record the sealed episode.  `eps` accumulates `this.episodes.push(episode)`. -/
def trainLoop (w : World) (ρ : ℕ → ℚ × Fin 4) (clock : ℕ → ℤ)
    (spawnGen : ℕ → Position) (fuel : ℕ) :
    ℕ → ℕ → ℕ → AIState → List Episode → Option (AIState × List Episode × ℕ)
  | 0, _, t, st, eps => some (st, eps, t)
  | n + 1, i, t, st, eps =>
    let st1 := resetForEpisode st (spawnGen i)
    match runEpisode w ρ clock fuel t st1 with
    | none => none
    | some (st2, ep, te) => trainLoop w ρ clock spawnGen fuel n (i + 1) (te + 1) st2 (eps ++ [ep])

/-- Source `train(episodes, decisionInterval, spawnPointGenerator)`: runs the loop
(`episodes ≤ 0` runs zero iterations, exactly as the JS `for` loop) and
resolves with the elapsed time `Date.now() - startTime`. -/
def train (w : World) (ρ : ℕ → ℚ × Fin 4) (clock : ℕ → ℤ) (spawnGen : ℕ → Position)
    (fuel : ℕ) (episodes : ℤ) (t0 : ℕ) (st : AIState) (eps : List Episode) :
    Option (AIState × List Episode × ℤ) :=
  (trainLoop w ρ clock spawnGen fuel episodes.toNat 0 t0 st eps).map fun r =>
    (r.1, r.2.1, clock r.2.2 - clock t0)

/-- The five training parameters as parsed by `startTraining` from the
input fields; `none` models a `NaN` result of `parseInt`/`parseFloat`. -/
structure TrainingParams where
  episodes : Option ℤ
  decisionInterval : Option ℤ
  explorationRate : Option ℚ
  learningRate : Option ℚ
  discountFactor : Option ℚ

/-- The only gate in `startTraining` before `ai.train(...)` is invoked:
`if (isNaN(episodes) || isNaN(decisionInterval) || isNaN(explorationRate)
|| isNaN(learningRate) || isNaN(discountFactor)) return alert(...)`.
`true` means the parameters pass the gate and training starts. -/
def startTrainingAccepts (p : TrainingParams) : Bool :=
  p.episodes.isSome && p.decisionInterval.isSome && p.explorationRate.isSome &&
    p.learningRate.isSome && p.discountFactor.isSome

/-! ### Sample fixtures: the `World` and `QLearningAI` built in the main
section of `script.ts` (width 11, height 11, goal (5,5); rates 0.2 / 0.1 /
0.9; position and spawn start at (0,0)). -/

def sampleWorld : World := { width := 11, height := 11, goal := ⟨5, 5⟩ }

def sampleAI : AIState :=
  { position := ⟨0, 0⟩, spawn := ⟨0, 0⟩, qTable := emptyQTable,
    explorationRate := 1/5, learningRate := 1/10, discountFactor := 9/10 }

/-! ### Claims about `commitAction` -/

/-- C2: for every position inside `[0, width) × [0, height)` and every
action of the fixed set, `commitAction` keeps the position inside the
grid; `UP` decrements `y` floored at `0`, `DOWN` increments `y` capped at
`height - 1`, `LEFT` decrements `x` floored at `0`, `RIGHT` increments `x`
capped at `width - 1`, and a move into a boundary leaves the position
unchanged (the function is total, so no error is raised). -/
theorem commitAction_clamps (w : World) (p : Position) (a : String)
    (hx0 : 0 ≤ p.x) (hxw : p.x < w.width) (hy0 : 0 ≤ p.y) (hyh : p.y < w.height)
    (ha : a ∈ actions) :
    (0 ≤ (commitAction w p a).x ∧ (commitAction w p a).x < w.width ∧
       0 ≤ (commitAction w p a).y ∧ (commitAction w p a).y < w.height) ∧
    (a = "UP" → commitAction w p a = { p with y := max 0 (p.y - 1) } ∧
       (p.y = 0 → commitAction w p a = p)) ∧
    (a = "DOWN" → commitAction w p a = { p with y := min (w.height - 1) (p.y + 1) } ∧
       (p.y = w.height - 1 → commitAction w p a = p)) ∧
    (a = "LEFT" → commitAction w p a = { p with x := max 0 (p.x - 1) } ∧
       (p.x = 0 → commitAction w p a = p)) ∧
    (a = "RIGHT" → commitAction w p a = { p with x := min (w.width - 1) (p.x + 1) } ∧
       (p.x = w.width - 1 → commitAction w p a = p)) := by
  have hW : 0 < w.width := lt_of_le_of_lt hx0 hxw
  have hH : 0 < w.height := lt_of_le_of_lt hy0 hyh
  fin_cases ha <;>
    refine ⟨?_, ?_, ?_, ?_, ?_⟩ <;>
      simp only [commitAction, reduceIte, String.reduceEq] <;>
        first
        | (intro h; exact absurd h (by decide))
        | (cases p; simp_all <;> omega)

/-- Witness for C2 at a concrete in-bounds position and action. -/
theorem commitAction_clamps_witness :
    (0 ≤ (commitAction sampleWorld ⟨0, 3⟩ "LEFT").x ∧
       (commitAction sampleWorld ⟨0, 3⟩ "LEFT").x < sampleWorld.width ∧
       0 ≤ (commitAction sampleWorld ⟨0, 3⟩ "LEFT").y ∧
       (commitAction sampleWorld ⟨0, 3⟩ "LEFT").y < sampleWorld.height) ∧
    commitAction sampleWorld ⟨0, 3⟩ "LEFT" = ⟨0, 3⟩ := by
  have h := commitAction_clamps sampleWorld ⟨0, 3⟩ "LEFT"
    (by decide) (by decide) (by decide) (by decide) (by decide)
  exact ⟨h.1, (h.2.2.2.1 rfl).2 rfl⟩

/-- C10: a string that is none of the four action names matches no `case`
of the `switch`, so `commitAction` leaves the position unchanged and
returns it (there is no `default` branch and no error). -/
theorem commitAction_unknown_noop (w : World) (p : Position) (a : String)
    (ha : a ∉ actions) : commitAction w p a = p := by
  simp only [actions, List.mem_cons, List.not_mem_nil, or_false, not_or] at ha
  obtain ⟨h1, h2, h3, h4⟩ := ha
  simp [commitAction, h1, h2, h3, h4]

/-- Witness for C10: the unknown action `"JUMP"` is a no-op. -/
theorem commitAction_unknown_noop_witness :
    commitAction sampleWorld ⟨4, 7⟩ "JUMP" = ⟨4, 7⟩ :=
  commitAction_unknown_noop sampleWorld ⟨4, 7⟩ "JUMP" (by decide)

/-! ### Claims about the reward -/

/-- C3: the reward `learn()` computes is exactly `100` when the
post-transition position is the goal and `-(manhattan distance)/10`
otherwise; hence every non-goal reward is `≤ 0`, and of two non-goal
positions the one nearer the goal (in Manhattan distance) gets the
strictly greater reward. -/
theorem learn_reward_formula (w : World) (st : AIState) (r1 : ℚ) (idx : Fin 4) :
    ((learn w st r1 idx).2.reward =
      if (commitAction w st.position (chooseAction st r1 idx)).x = w.goal.x ∧
          (commitAction w st.position (chooseAction st r1 idx)).y = w.goal.y
      then (100 : ℚ)
      else -((manhattanDist (commitAction w st.position (chooseAction st r1 idx)) w.goal : ℚ))
            / 10) ∧
    (∀ p : Position, ¬(p.x = w.goal.x ∧ p.y = w.goal.y) → rewardAt w p ≤ 0) ∧
    (∀ p q : Position, ¬(p.x = w.goal.x ∧ p.y = w.goal.y) →
      ¬(q.x = w.goal.x ∧ q.y = w.goal.y) →
      manhattanDist p w.goal < manhattanDist q w.goal → rewardAt w q < rewardAt w p) := by
  refine ⟨rfl, ?_, ?_⟩
  · intro p hp
    have hd : (0 : ℤ) ≤ manhattanDist p w.goal :=
      add_nonneg (abs_nonneg _) (abs_nonneg _)
    have hd' : (0 : ℚ) ≤ (manhattanDist p w.goal : ℚ) := by exact_mod_cast hd
    simp only [rewardAt, if_neg hp]
    linarith
  · intro p q hp hq hlt
    have hlt' : (manhattanDist p w.goal : ℚ) < (manhattanDist q w.goal : ℚ) := by
      exact_mod_cast hlt
    simp only [rewardAt, if_neg hp, if_neg hq]
    linarith

/-- Witness for C3 on the source's 11×11 world with goal (5,5). -/
theorem learn_reward_formula_witness :
    rewardAt sampleWorld ⟨0, 0⟩ ≤ 0 ∧
    rewardAt sampleWorld ⟨0, 0⟩ < rewardAt sampleWorld ⟨1, 1⟩ := by
  have h := learn_reward_formula sampleWorld sampleAI 0 0
  exact ⟨h.2.1 ⟨0, 0⟩ (by decide),
    h.2.2 ⟨1, 1⟩ ⟨0, 0⟩ (by decide) (by decide) (by decide)⟩

/-! ### The state-key encoding is collision-free (C8) -/

/-- Numeric value of a decimal digit character. -/
def charVal (c : Char) : ℕ := c.toNat - 48

/-- Reads a digit string back as a number (left inverse of `natChars`). -/
def parseChars (cs : List Char) : ℕ := cs.foldl (fun acc c => 10 * acc + charVal c) 0

lemma digitChar_toNat (n : ℕ) (h : n < 10) : (digitChar n).toNat = 48 + n := by
  interval_cases n <;> rfl

lemma parseChars_append_singleton (cs : List Char) (c : Char) :
    parseChars (cs ++ [c]) = 10 * parseChars cs + charVal c := by
  simp [parseChars, List.foldl_append]

lemma parseChars_natChars (n : ℕ) : parseChars (natChars n) = n := by
  induction n using Nat.strong_induction_on with
  | _ n ih =>
    rw [natChars]
    split
    · next h =>
      simp [parseChars, charVal, digitChar_toNat n h]
    · next h =>
      rw [parseChars_append_singleton,
        ih (n / 10) (Nat.div_lt_self (by omega) (by omega)), charVal,
        digitChar_toNat _ (Nat.mod_lt _ (by omega))]
      omega

lemma natChars_injective : Function.Injective natChars := by
  intro a b h
  have := parseChars_natChars a
  rw [h, parseChars_natChars] at this
  omega

lemma natChars_range (n : ℕ) : ∀ c ∈ natChars n, 48 ≤ c.toNat ∧ c.toNat ≤ 57 := by
  induction n using Nat.strong_induction_on with
  | _ n ih =>
    intro c hc
    rw [natChars] at hc
    split at hc
    · next h =>
      simp only [List.mem_singleton] at hc
      subst hc
      rw [digitChar_toNat n h]
      omega
    · next h =>
      rcases List.mem_append.mp hc with h1 | h2
      · exact ih (n / 10) (Nat.div_lt_self (by omega) (by omega)) c h1
      · simp only [List.mem_singleton] at h2
        subst h2
        rw [digitChar_toNat _ (Nat.mod_lt _ (by omega))]
        omega

lemma intChars_injective : Function.Injective intChars := by
  intro a b h
  unfold intChars at h
  split at h <;> split at h
  · next ha hb =>
    have := natChars_injective (List.cons_injective h)
    omega
  · next ha hb =>
    have hmem : '-' ∈ natChars b.toNat := h ▸ List.mem_cons_self '-' _
    have := (natChars_range b.toNat '-' hmem).1
    simp at this
  · next ha hb =>
    have hmem : '-' ∈ natChars a.toNat := h.symm ▸ List.mem_cons_self '-' _
    have := (natChars_range a.toNat '-' hmem).1
    simp at this
  · next ha hb =>
    have := natChars_injective h
    omega

lemma comma_not_mem_natChars (n : ℕ) : ',' ∉ natChars n := by
  intro hmem
  have := (natChars_range n ',' hmem).1
  simp at this

lemma comma_not_mem_intChars (n : ℤ) : ',' ∉ intChars n := by
  intro hmem
  unfold intChars at hmem
  split at hmem
  · rcases List.mem_cons.mp hmem with h | h
    · simp at h
    · exact comma_not_mem_natChars _ h
  · exact comma_not_mem_natChars _ hmem

lemma append_comma_cancel :
    ∀ (as cs bs ds : List Char), ',' ∉ as → ',' ∉ cs →
      as ++ ',' :: bs = cs ++ ',' :: ds → as = cs ∧ bs = ds := by
  intro as
  induction as with
  | nil =>
    intro cs bs ds _ hc h
    cases cs with
    | nil => simpa using h
    | cons c cs' =>
      simp only [List.nil_append, List.cons_append, List.cons.injEq] at h
      exact absurd (h.1 ▸ List.mem_cons_self c cs') hc
  | cons a as' ih =>
    intro cs bs ds ha hc h
    cases cs with
    | nil =>
      simp only [List.cons_append, List.nil_append, List.cons.injEq] at h
      exact absurd (h.1 ▸ List.mem_cons_self a as') ha
    | cons c cs' =>
      simp only [List.cons_append, List.cons.injEq] at h
      obtain ⟨hac, htail⟩ := h
      have h' := ih cs' bs ds (fun hm => ha (List.mem_cons_of_mem _ hm))
        (fun hm => hc (List.mem_cons_of_mem _ hm)) htail
      exact ⟨by rw [hac, h'.1], h'.2⟩

lemma posKey_injective : Function.Injective posKey := by
  intro p q h
  have hd : intChars p.x ++ ',' :: intChars p.y = intChars q.x ++ ',' :: intChars q.y :=
    congrArg String.data h
  obtain ⟨h1, h2⟩ := append_comma_cancel _ _ _ _
    (comma_not_mem_intChars _) (comma_not_mem_intChars _) hd
  have hx := intChars_injective h1
  have hy := intChars_injective h2
  cases p; cases q; simp_all

/-- C8: the key string `` `${x},${y}` `` built by `getQStateKey` is a
collision-free encoding of integer positions: two positions get the same
key exactly when they have the same coordinates. -/
theorem posKey_collision_free (p q : Position) :
    posKey p = posKey q ↔ p.x = q.x ∧ p.y = q.y := by
  constructor
  · intro h
    have := posKey_injective h
    cases this
    exact ⟨rfl, rfl⟩
  · intro ⟨hx, hy⟩
    cases p; cases q
    simp_all

/-! ### The exploitation branch of `chooseAction` (C4) -/

/-- C4: whenever `chooseAction` takes the exploitation branch (in
particular always when `explorationRate = 0`, since `Math.random()` is
`≥ 0`), the returned action has maximal Q-value for the current state
among the four actions, and ties go to the action occurring first in
`['UP','DOWN','LEFT','RIGHT']`; with no table row for the current state
(all Q-values `0`) it returns `'UP'`. -/
theorem chooseAction_exploit_best (st : AIState) (r1 : ℚ) (idx : Fin 4) :
    (((st.explorationRate = 0 ∧ 0 ≤ r1) ∨ ¬ r1 < st.explorationRate) →
      chooseAction st r1 idx ∈ actions ∧
      (∀ a ∈ actions,
        getQValue st.qTable (posKey st.position) a ≤
          getQValue st.qTable (posKey st.position) (chooseAction st r1 idx)) ∧
      (∀ a ∈ actions,
        getQValue st.qTable (posKey st.position) a =
          getQValue st.qTable (posKey st.position) (chooseAction st r1 idx) →
        actions.indexOf (chooseAction st r1 idx) ≤ actions.indexOf a)) ∧
    (st.qTable (posKey st.position) = none → ¬ r1 < st.explorationRate →
      chooseAction st r1 idx = "UP") := by
  have main : ¬ r1 < st.explorationRate →
      chooseAction st r1 idx ∈ actions ∧
      (∀ a ∈ actions,
        getQValue st.qTable (posKey st.position) a ≤
          getQValue st.qTable (posKey st.position) (chooseAction st r1 idx)) ∧
      (∀ a ∈ actions,
        getQValue st.qTable (posKey st.position) a =
          getQValue st.qTable (posKey st.position) (chooseAction st r1 idx) →
        actions.indexOf (chooseAction st r1 idx) ≤ actions.indexOf a) := by
    intro hexp
    simp only [chooseAction, if_neg hexp, actions, List.headD, List.foldl, ite_self]
    split_ifs <;>
      refine ⟨by decide, fun a ha => ?_, fun a ha heq => ?_⟩ <;>
        fin_cases ha <;>
          first
          | decide
          | linarith
  constructor
  · rintro (⟨he, hr⟩ | hexp)
    · exact main (by rw [he]; exact not_lt.mpr hr)
    · exact main hexp
  · intro hnone hexp
    simp only [chooseAction, if_neg hexp, actions, List.headD, List.foldl, ite_self]
    simp [getQValue, hnone]

/-- Witness for C4: on the source's fresh AI (empty table, rate 0.2), an
exploitation-branch draw returns `'UP'`. -/
theorem chooseAction_exploit_best_witness :
    chooseAction sampleAI (1/2) 0 = "UP" := by
  have h := chooseAction_exploit_best sampleAI (1/2) 0
  exact h.2 rfl (by norm_num [sampleAI])

/-! ### The `learn` step: update formula and frame (C1, C9) -/

lemma getQValue_setQValue_same (t : QTable) (k a : String) (v : ℚ) :
    getQValue (setQValue t k a v) k a = v := by
  simp [getQValue, setQValue]

lemma getQValue_setQValue_other (t : QTable) (k a : String) (v : ℚ) (k' a' : String)
    (h : k' ≠ k ∨ a' ≠ a) :
    getQValue (setQValue t k a v) k' a' = getQValue t k' a' := by
  rcases h with h | h
  · simp [getQValue, setQValue, if_neg h]
  · by_cases hk : k' = k
    · subst hk
      simp only [getQValue, setQValue, if_pos rfl, if_neg h]
      cases htk : t k' <;> simp [htk, zeroRow, getQValue]
    · simp [getQValue, setQValue, if_neg hk]

/-- C1: one `learn()` call on an in-bounds position: with `s` the pre-move
position, `a` the policy's action, `s'` the clamped successor and `r` the
reward at `s'`, the table entry for `(s, a)` becomes
`currentQ + learningRate * (r + discountFactor * maxNextQ - currentQ)`
where `currentQ` and `maxNextQ` are read from the table before the write;
no other entry changes and no other field of the agent changes except the
position, which becomes `s'`; the returned `Decision` is
`{action = a, reward = r, distanceToGoal = manhattan(s', goal), position = s'}`. -/
theorem learn_step_spec (w : World) (st : AIState) (r1 : ℚ) (idx : Fin 4)
    (_hx0 : 0 ≤ st.position.x) (_hxw : st.position.x < w.width)
    (_hy0 : 0 ≤ st.position.y) (_hyh : st.position.y < w.height)
    (a : String) (s' : Position) (r currentQ maxNextQ : ℚ)
    (ha : a = chooseAction st r1 idx)
    (hs' : s' = commitAction w st.position a)
    (hr : r = rewardAt w s')
    (hcQ : currentQ = getQValue st.qTable (posKey st.position) a)
    (hmQ : maxNextQ =
      max (getQValue st.qTable (posKey s') "UP")
        (max (getQValue st.qTable (posKey s') "DOWN")
          (max (getQValue st.qTable (posKey s') "LEFT")
            (getQValue st.qTable (posKey s') "RIGHT")))) :
    (learn w st r1 idx).1.position = s' ∧
    getQValue (learn w st r1 idx).1.qTable (posKey st.position) a =
      currentQ + st.learningRate * (r + st.discountFactor * maxNextQ - currentQ) ∧
    (∀ k a', k ≠ posKey st.position ∨ a' ≠ a →
      getQValue (learn w st r1 idx).1.qTable k a' = getQValue st.qTable k a') ∧
    (learn w st r1 idx).1.spawn = st.spawn ∧
    (learn w st r1 idx).1.explorationRate = st.explorationRate ∧
    (learn w st r1 idx).1.learningRate = st.learningRate ∧
    (learn w st r1 idx).1.discountFactor = st.discountFactor ∧
    (learn w st r1 idx).2 =
      { action := a, reward := r, distanceToGoal := manhattanDist s' w.goal,
        position := s' } := by
  subst hmQ hcQ hr hs' ha
  refine ⟨rfl, ?_, ?_, rfl, rfl, rfl, rfl, rfl⟩
  · exact getQValue_setQValue_same st.qTable (posKey st.position) (chooseAction st r1 idx) _
  · intro k a' h
    exact getQValue_setQValue_other st.qTable (posKey st.position)
      (chooseAction st r1 idx) _ k a' (by tauto)

/-- Witness for C1 on the source's fresh AI at spawn (0,0). -/
theorem learn_step_spec_witness :
    (learn sampleWorld sampleAI (1/2) 0).1.position =
      commitAction sampleWorld sampleAI.position (chooseAction sampleAI (1/2) 0) :=
  (learn_step_spec sampleWorld sampleAI (1/2) 0
    (by decide) (by decide) (by decide) (by decide)
    _ _ _ _ _ rfl rfl rfl rfl rfl).1

/-- C9: a `learn()` call changes the observable table at most at the
pre-move state and chosen action: every other `(position, action)` pair
reads the same Q-value afterwards (via the collision-free key), and when
the pre-move state's row is freshly materialized, the untaken actions of
that row still read `0`. -/
theorem learn_single_write (w : World) (st : AIState) (r1 : ℚ) (idx : Fin 4) :
    (∀ (p' : Position) (a' : String),
      p' ≠ st.position ∨ a' ≠ chooseAction st r1 idx →
      getQValue (learn w st r1 idx).1.qTable (posKey p') a' =
        getQValue st.qTable (posKey p') a') ∧
    (st.qTable (posKey st.position) = none →
      ∀ a' : String, a' ≠ chooseAction st r1 idx →
        getQValue (learn w st r1 idx).1.qTable (posKey st.position) a' = 0) := by
  constructor
  · intro p' a' h
    refine getQValue_setQValue_other st.qTable (posKey st.position)
      (chooseAction st r1 idx) _ (posKey p') a' ?_
    rcases h with h | h
    · exact Or.inl fun hk => h (posKey_injective hk)
    · exact Or.inr h
  · intro hnone a' h
    obtain ⟨v, hv⟩ : ∃ v, (learn w st r1 idx).1.qTable =
        setQValue st.qTable (posKey st.position) (chooseAction st r1 idx) v := ⟨_, rfl⟩
    rw [hv, getQValue_setQValue_other st.qTable (posKey st.position)
      (chooseAction st r1 idx) v (posKey st.position) a' (Or.inr h)]
    simp [getQValue, hnone]

/-- On the source's fresh AI, the exploitation draw `1/2 ≥ 0.2` picks
`'UP'` (used by concrete witnesses below). -/
lemma chooseAction_sample_eval : chooseAction sampleAI (1/2) 0 = "UP" := by
  norm_num [chooseAction, sampleAI, getQValue, emptyQTable, actions, List.foldl]

/-- Witness for C9: the untouched cell (3,3) keeps its value and the
untaken action `'DOWN'` of the fresh row still reads `0`. -/
theorem learn_single_write_witness :
    getQValue (learn sampleWorld sampleAI (1/2) 0).1.qTable (posKey ⟨3, 3⟩) "UP" =
      getQValue sampleAI.qTable (posKey ⟨3, 3⟩) "UP" ∧
    getQValue (learn sampleWorld sampleAI (1/2) 0).1.qTable
      (posKey sampleAI.position) "DOWN" = 0 := by
  have h := learn_single_write sampleWorld sampleAI (1/2) 0
  exact ⟨h.1 ⟨3, 3⟩ "UP" (Or.inl (by decide)),
    h.2 rfl "DOWN" (by rw [chooseAction_sample_eval]; decide)⟩

/-! ### Episode sealing invariant (C5) -/

lemma learn_decision_position (w : World) (st : AIState) (r1 : ℚ) (idx : Fin 4) :
    (learn w st r1 idx).2.position = (learn w st r1 idx).1.position := rfl

/-- Invariant of the `setInterval` loop: a terminating run reaches the
goal, appends its trace after the accumulator, takes no step if already at
the goal, visits the goal in no intermediate decision, and ends exactly at
the goal. -/
lemma runEpisodeLoop_spec (w : World) (ρ : ℕ → ℚ × Fin 4) :
    ∀ (fuel t : ℕ) (st : AIState) (acc : List Decision) (st' : AIState)
      (ds : List Decision) (te : ℕ),
      runEpisodeLoop w ρ fuel t st acc = some (st', ds, te) →
      t ≤ te ∧ (st'.position.x = w.goal.x ∧ st'.position.y = w.goal.y) ∧
      ∃ tail, ds = acc.reverse ++ tail ∧
        ((st.position.x = w.goal.x ∧ st.position.y = w.goal.y) ↔ tail = []) ∧
        (∀ d ∈ tail.dropLast, ¬(d.position.x = w.goal.x ∧ d.position.y = w.goal.y)) ∧
        (∀ d, tail.getLast? = some d →
          d.position.x = w.goal.x ∧ d.position.y = w.goal.y) := by
  intro fuel
  induction fuel with
  | zero =>
    intro t st acc st' ds te h
    simp [runEpisodeLoop] at h
  | succ n ih =>
    intro t st acc st' ds te h
    rw [runEpisodeLoop] at h
    by_cases hg : st.position.x = w.goal.x ∧ st.position.y = w.goal.y
    · rw [if_pos hg] at h
      obtain ⟨rfl, rfl, rfl⟩ : st = st' ∧ acc.reverse = ds ∧ t = te := by
        simpa [Prod.ext_iff] using h
      refine ⟨le_refl t, hg, [], by simp, ?_, by simp, by simp⟩
      exact iff_of_true hg rfl
    · rw [if_neg hg] at h
      obtain ⟨hte, hgoal', tail1, hds, hiff, hmid, hlast⟩ := ih _ _ _ _ _ _ h
      refine ⟨le_trans (Nat.le_succ t) hte, hgoal',
        (learn w st (ρ t).1 (ρ t).2).2 :: tail1, ?_, iff_of_false hg (by simp), ?_, ?_⟩
      · rw [hds, List.reverse_cons, List.append_assoc, List.singleton_append]
      · intro d hd
        cases tail1 with
        | nil => simp at hd
        | cons e es =>
          rcases List.mem_cons.mp (by simpa using hd) with rfl | hd'
          · rw [learn_decision_position]
            intro hcontra
            exact (List.cons_ne_nil e es) (hiff.mp hcontra)
          · exact hmid d hd'
      · intro d hd
        cases tail1 with
        | nil =>
          simp only [List.getLast?_singleton, Option.some.injEq] at hd
          subst hd
          rw [learn_decision_position]
          exact hiff.mpr rfl
        | cons e es =>
          exact hlast d (by simpa [List.getLast?_cons_cons] using hd)

/-- C5: every sealed episode: if the spawn position already equals the
goal, the decision list is empty and `endTime ≥ startTime` (the goal test
precedes any action); otherwise the last decision's position is the goal
and no earlier decision's position is. -/
theorem runEpisode_sealed_invariant (w : World) (ρ : ℕ → ℚ × Fin 4) (clock : ℕ → ℤ)
    (fuel t0 : ℕ) (st st' : AIState) (ep : Episode) (te : ℕ)
    (hclock : Monotone clock)
    (h : runEpisode w ρ clock fuel t0 st = some (st', ep, te)) :
    ((st.position.x = w.goal.x ∧ st.position.y = w.goal.y) →
      ep.decisions = [] ∧ ep.startTime ≤ ep.endTime) ∧
    (¬(st.position.x = w.goal.x ∧ st.position.y = w.goal.y) →
      ep.decisions ≠ [] ∧
      (∀ d, ep.decisions.getLast? = some d →
        d.position.x = w.goal.x ∧ d.position.y = w.goal.y) ∧
      (∀ d ∈ ep.decisions.dropLast,
        ¬(d.position.x = w.goal.x ∧ d.position.y = w.goal.y))) := by
  rw [runEpisode] at h
  cases hlp : runEpisodeLoop w ρ fuel (t0 + 1) st [] with
  | none => rw [hlp] at h; simp at h
  | some r =>
    rw [hlp] at h
    simp only [Option.map_some', Option.some.injEq] at h
    obtain ⟨rfl, rfl, rfl⟩ : r.1 = st' ∧
        ({ startTime := clock t0, endTime := clock r.2.2, decisions := r.2.1 } : Episode) = ep ∧
        r.2.2 = te := by simpa [Prod.ext_iff] using h
    obtain ⟨hte, _hgoal, tail, hds, hiff, hmid, hlast⟩ :=
      runEpisodeLoop_spec w ρ fuel (t0 + 1) st [] r.1 r.2.1 r.2.2 hlp
    simp only [List.reverse_nil, List.nil_append] at hds
    constructor
    · intro hg
      refine ⟨by simp [hds, hiff.mp hg], ?_⟩
      exact hclock (le_trans (Nat.le_succ t0) hte)
    · intro hg
      refine ⟨?_, fun d hd => hlast d (by rwa [← hds]), fun d hd => hmid d (by rwa [← hds])⟩
      simp only [hds]
      intro hnil
      exact hg (hiff.mpr hnil)

/-- Witness for C5: spawning at the goal of the source world seals an
episode with no decisions and `endTime ≥ startTime`. -/
theorem runEpisode_sealed_invariant_witness :
    ({ startTime := 0, endTime := 1, decisions := [] } : Episode).decisions = [] ∧
    ({ startTime := 0, endTime := 1, decisions := [] } : Episode).startTime ≤
      ({ startTime := 0, endTime := 1, decisions := [] } : Episode).endTime := by
  have h := runEpisode_sealed_invariant sampleWorld (fun _ => (0, 0)) (fun n => (n : ℤ))
    1 0 { sampleAI with position := ⟨5, 5⟩ } { sampleAI with position := ⟨5, 5⟩ }
    { startTime := 0, endTime := 1, decisions := [] } 1
    (fun _ _ hab => Int.ofNat_le.mpr hab) rfl
  exact h.1 (by decide)

/-! ### Training-loop frame and persistence (C7) -/

lemma setQValue_isSome (t : QTable) (k a : String) (v : ℚ) (k' : String)
    (h : (t k').isSome) : ((setQValue t k a v) k').isSome := by
  by_cases hk : k' = k
  · subst hk; simp [setQValue]
  · simpa [setQValue, if_neg hk] using h

lemma learn_qTable_isSome (w : World) (st : AIState) (r1 : ℚ) (idx : Fin 4) (k : String)
    (h : (st.qTable k).isSome) : ((learn w st r1 idx).1.qTable k).isSome := by
  obtain ⟨v, hv⟩ : ∃ v, (learn w st r1 idx).1.qTable =
      setQValue st.qTable (posKey st.position) (chooseAction st r1 idx) v := ⟨_, rfl⟩
  rw [hv]
  exact setQValue_isSome _ _ _ _ _ h

lemma runEpisodeLoop_qTable_isSome (w : World) (ρ : ℕ → ℚ × Fin 4) :
    ∀ (fuel t : ℕ) (st : AIState) (acc : List Decision) (st' : AIState)
      (ds : List Decision) (te : ℕ),
      runEpisodeLoop w ρ fuel t st acc = some (st', ds, te) →
      ∀ k, (st.qTable k).isSome → (st'.qTable k).isSome := by
  intro fuel
  induction fuel with
  | zero =>
    intro t st acc st' ds te h
    simp [runEpisodeLoop] at h
  | succ n ih =>
    intro t st acc st' ds te h k hk
    rw [runEpisodeLoop] at h
    by_cases hg : st.position.x = w.goal.x ∧ st.position.y = w.goal.y
    · rw [if_pos hg] at h
      obtain ⟨rfl, -, -⟩ : st = st' ∧ acc.reverse = ds ∧ t = te := by
        simpa [Prod.ext_iff] using h
      exact hk
    · rw [if_neg hg] at h
      exact ih _ _ _ _ _ _ h k (learn_qTable_isSome w st (ρ t).1 (ρ t).2 k hk)

lemma trainLoop_qTable_isSome (w : World) (ρ : ℕ → ℚ × Fin 4) (clock : ℕ → ℤ)
    (spawnGen : ℕ → Position) (fuel : ℕ) :
    ∀ (n i t : ℕ) (st : AIState) (eps : List Episode) (st' : AIState)
      (eps' : List Episode) (te : ℕ),
      trainLoop w ρ clock spawnGen fuel n i t st eps = some (st', eps', te) →
      ∀ k, (st.qTable k).isSome → (st'.qTable k).isSome := by
  intro n
  induction n with
  | zero =>
    intro i t st eps st' eps' te h k hk
    obtain ⟨rfl, -, -⟩ : st = st' ∧ eps = eps' ∧ t = te := by
      simpa [trainLoop, Prod.ext_iff] using h
    exact hk
  | succ m ih =>
    intro i t st eps st' eps' te h k hk
    rw [trainLoop] at h
    cases hep : runEpisode w ρ clock fuel t (resetForEpisode st (spawnGen i)) with
    | none => rw [hep] at h; simp at h
    | some r =>
      rw [hep] at h
      have hmid : ((resetForEpisode st (spawnGen i)).qTable k).isSome := hk
      have h1 : (r.1.qTable k).isSome := by
        rw [runEpisode] at hep
        cases hlp : runEpisodeLoop w ρ fuel (t + 1) (resetForEpisode st (spawnGen i)) [] with
        | none => rw [hlp] at hep; simp at hep
        | some q =>
          rw [hlp] at hep
          simp only [Option.map_some', Option.some.injEq] at hep
          have hq1 : q.1 = r.1 := by rw [← hep]
          rw [← hq1]
          exact runEpisodeLoop_qTable_isSome w ρ fuel (t + 1) _ [] q.1 q.2.1 q.2.2
            (by rw [hlp]) k hmid
      exact ih _ _ _ _ _ _ _ h k h1

/-- C7: the per-episode reset at the top of the `train` loop writes only
the `spawn` and `position` fields — the Q-table, the episode memory and
the three rates are untouched — and a whole training run never deletes a
Q-table row, so learned values persist across the episodes of a run and
(applying this to each call) across successive `train` invocations. -/
theorem train_reset_preserves_qtable (w : World) (ρ : ℕ → ℚ × Fin 4) (clock : ℕ → ℤ)
    (spawnGen : ℕ → Position) :
    (∀ (st : AIState) (p : Position),
      (resetForEpisode st p).qTable = st.qTable ∧
      (resetForEpisode st p).explorationRate = st.explorationRate ∧
      (resetForEpisode st p).learningRate = st.learningRate ∧
      (resetForEpisode st p).discountFactor = st.discountFactor ∧
      (resetForEpisode st p).spawn = p ∧ (resetForEpisode st p).position = p) ∧
    (∀ (fuel : ℕ) (episodes : ℤ) (t0 : ℕ) (st : AIState) (eps : List Episode)
       (st' : AIState) (eps' : List Episode) (elapsed : ℤ),
      train w ρ clock spawnGen fuel episodes t0 st eps = some (st', eps', elapsed) →
      ∀ k, (st.qTable k).isSome → (st'.qTable k).isSome) := by
  refine ⟨fun st p => ⟨rfl, rfl, rfl, rfl, rfl, rfl⟩, ?_⟩
  intro fuel episodes t0 st eps st' eps' elapsed h k hk
  rw [train] at h
  cases hlp : trainLoop w ρ clock spawnGen fuel episodes.toNat 0 t0 st eps with
  | none => rw [hlp] at h; simp at h
  | some r =>
    rw [hlp] at h
    simp only [Option.map_some', Option.some.injEq] at h
    have hr : r.1 = st' := congrArg Prod.fst h
    rw [← hr]
    exact trainLoop_qTable_isSome w ρ clock spawnGen fuel episodes.toNat 0 t0 st eps
      r.1 r.2.1 r.2.2 (by rw [hlp]) k hk

/-- Witness for C7: the reset keeps the sample AI's table, and a
zero-episode run trivially preserves table rows. -/
theorem train_reset_preserves_qtable_witness :
    (resetForEpisode sampleAI ⟨2, 2⟩).qTable = sampleAI.qTable ∧
    ((sampleAI.qTable (posKey ⟨0, 0⟩)).isSome → (sampleAI.qTable (posKey ⟨0, 0⟩)).isSome) := by
  have h := train_reset_preserves_qtable sampleWorld (fun _ => (0, 0)) (fun n => (n : ℤ))
    (fun _ => ⟨0, 0⟩)
  exact ⟨(h.1 sampleAI ⟨2, 2⟩).1,
    h.2 1 0 0 sampleAI [] sampleAI [] 0 rfl (posKey ⟨0, 0⟩)⟩

/-! ### Parameter validation before training (C6) -/

/-- C6 counterexample: a parameter set with a non-positive episode count
and an exploration rate outside `[0,1]` — both configuration errors in the
claim's sense — passes the only gate in `startTraining` (the `isNaN`
check), so no configuration error is detected or surfaced before episodes
run. -/
theorem startTraining_accepts_out_of_range :
    ((-5 : ℤ) ≤ 0 ∧ ¬((0 : ℚ) ≤ 2 ∧ (2 : ℚ) ≤ 1)) ∧
    startTrainingAccepts
      { episodes := some (-5), decisionInterval := some 50,
        explorationRate := some 2, learningRate := some (1/10),
        discountFactor := some (9/10) } = true := by
  refine ⟨⟨by norm_num, ?_⟩, rfl⟩
  rintro ⟨-, h⟩
  norm_num at h

/-- C6 (amended): `startTraining` rejects a configuration synchronously
(before any episode runs, leaving every Q-value unwritten) exactly when
some parameter parses to `NaN`; no range check exists, and a call of
`train` with a non-positive episode count runs zero episodes and returns
with the agent state — in particular the value table — unchanged. -/
theorem startTraining_validation (p : TrainingParams) (w : World) (ρ : ℕ → ℚ × Fin 4)
    (clock : ℕ → ℤ) (spawnGen : ℕ → Position) (fuel : ℕ) (episodes : ℤ) (t0 : ℕ)
    (st : AIState) (eps : List Episode) :
    (startTrainingAccepts p = true ↔
      p.episodes.isSome ∧ p.decisionInterval.isSome ∧ p.explorationRate.isSome ∧
      p.learningRate.isSome ∧ p.discountFactor.isSome) ∧
    (episodes ≤ 0 →
      train w ρ clock spawnGen fuel episodes t0 st eps =
        some (st, eps, clock t0 - clock t0)) := by
  constructor
  · simp [startTrainingAccepts, Bool.and_eq_true, and_assoc]
  · intro h
    rw [train, Int.toNat_of_nonpos h]
    rfl

/-- Witness for C6's amended statement: `train` with episode count `-3`
returns immediately with the sample AI unchanged. -/
theorem startTraining_validation_witness :
    train sampleWorld (fun _ => (0, 0)) (fun n => (n : ℤ)) (fun _ => ⟨0, 0⟩) 1 (-3) 0
      sampleAI [] = some (sampleAI, [], 0) := by
  exact (startTraining_validation
    { episodes := some (-3), decisionInterval := some 50, explorationRate := some 0,
      learningRate := some (1/10), discountFactor := some (9/10) }
    sampleWorld (fun _ => (0, 0)) (fun n => (n : ℤ)) (fun _ => ⟨0, 0⟩) 1 (-3) 0
    sampleAI []).2 (by norm_num)

end QDemo
